import Mathlib

/-!
Verification of the base85 codec in libs/stringencoders/python/b85.py.

Python byte strings are modelled as lists of natural numbers below 256
(one entry per character, the value of ord).  Python exceptions raised by
the codec are modelled by the error type PyErr:
the struct.error raised by unpack on a length mismatch, the struct.error
raised by pack on a value out of range for the standard unsigned 32-bit
format, and IndexError raised by out-of-range sequence indexing.
-/

/-- Errors the Python code can raise: struct.error from unpack (buffer
length does not match the format), struct.error from pack (value out of
range for the standard 32-bit unsigned format), and IndexError. -/
inductive PyErr where
  | structUnpackLength
  | structPackRange
  | indexError
deriving DecidableEq, Repr

deriving instance DecidableEq for Except

/-- The reverse table of b85.py: maps a byte to its base-85 digit, with
256 marking a byte that is not an alphabet character.  Copied verbatim. -/
def gsCharToInt : List Nat := [
    256, 256, 256, 256, 256, 256, 256, 256, 256, 256, 256, 256,
    256, 256, 256, 256, 256, 256, 256, 256, 256, 256, 256, 256,
    256, 256, 256, 256, 256, 256, 256, 256, 256,   0, 256,   1,
    2,   3, 256,   4,   5,   6,   7,   8, 256,   9,  10,  11,
    12,  13,  14,  15,  16,  17,  18,  19,  20,  21,  22, 256,
    23,  24,  25,  26,  27,  28,  29,  30,  31,  32,  33,  34,
    35,  36,  37,  38,  39,  40,  41,  42,  43,  44,  45,  46,
    47,  48,  49,  50,  51,  52,  53,  54, 256,  55,  56,  57,
    58,  59,  60,  61,  62,  63,  64,  65,  66,  67,  68,  69,
    70,  71,  72,  73,  74,  75,  76,  77,  78,  79,  80,  81,
    82,  83,  84, 256, 256, 256, 256, 256, 256, 256, 256, 256,
    256, 256, 256, 256, 256, 256, 256, 256, 256, 256, 256, 256,
    256, 256, 256, 256, 256, 256, 256, 256, 256, 256, 256, 256,
    256, 256, 256, 256, 256, 256, 256, 256, 256, 256, 256, 256,
    256, 256, 256, 256, 256, 256, 256, 256, 256, 256, 256, 256,
    256, 256, 256, 256, 256, 256, 256, 256, 256, 256, 256, 256,
    256, 256, 256, 256, 256, 256, 256, 256, 256, 256, 256, 256,
    256, 256, 256, 256, 256, 256, 256, 256, 256, 256, 256, 256,
    256, 256, 256, 256, 256, 256, 256, 256, 256, 256, 256, 256,
    256, 256, 256, 256, 256, 256, 256, 256, 256, 256, 256, 256,
    256, 256, 256, 256, 256, 256, 256, 256, 256, 256, 256, 256,
    256, 256, 256, 256]

/-- The forward table of b85.py: maps a digit in 0..84 to the byte value
of its character.  The source lists the characters; here each is written
as its byte value, row for row: the first row is the characters bang,
hash, dollar, percent, quote, the parentheses, star, plus, minus. -/
def gsIntToChar : List Nat := [
     33,  35,  36,  37,  39,  40,  41,  42,  43,  45,
     46,  47,  48,  49,  50,  51,  52,  53,  54,  55,
     56,  57,  58,  60,  61,  62,  63,  64,  65,  66,
     67,  68,  69,  70,  71,  72,  73,  74,  75,  76,
     77,  78,  79,  80,  81,  82,  83,  84,  85,  86,
     87,  88,  89,  90,  91,  93,  94,  95,  96,  97,
     98,  99, 100, 101, 102, 103, 104, 105, 106, 107,
    108, 109, 110, 111, 112, 113, 114, 115, 116, 117,
    118, 119, 120, 121, 122]

/-- Python sequence indexing: seq[i] yields the element or raises
IndexError when i is out of range.  Used both for string indexing and
for the two lookup tables. -/
def pyGet (l : List Nat) (i : Nat) : Except PyErr Nat :=
  match l.get? i with
  | some v => Except.ok v
  | none => Except.error PyErr.indexError

/-- The body of the encoder loop for one 32-bit group value x, producing
the five characters appended to parts by b85_encode (lines 76-80), and
counting how many forward-table lookups were performed.  The constants
52200625, 614125 and 7225 are the literals in the source for the powers
85^4, 85^3 and 85^2. -/
def encodeChunkT (x : Nat) : Nat × Except PyErr (List Nat) :=
  match pyGet gsIntToChar (x / 52200625) with
  | Except.error e => (1, Except.error e)
  | Except.ok c0 =>
    match pyGet gsIntToChar (x / 614125 % 85) with
    | Except.error e => (2, Except.error e)
    | Except.ok c1 =>
      match pyGet gsIntToChar (x / 7225 % 85) with
      | Except.error e => (3, Except.error e)
      | Except.ok c2 =>
        match pyGet gsIntToChar (x / 85 % 85) with
        | Except.error e => (4, Except.error e)
        | Except.ok c3 =>
          match pyGet gsIntToChar (x % 85) with
          | Except.error e => (5, Except.error e)
          | Except.ok c4 => (5, Except.ok [c0, c1, c2, c3, c4])

/-- The semantics of unpack with a network-order repeated unsigned
32-bit format: each consecutive 4-byte group becomes one value, the most
significant byte first.  Called only after the length check that unpack
itself performs. -/
def unpack4BE : List Nat → List Nat
  | b0 :: b1 :: b2 :: b3 :: rest =>
      (((b0 * 256 + b1) * 256 + b2) * 256 + b3) :: unpack4BE rest
  | _ => []

/-- The encoder loop of b85_encode over the unpacked group values,
threading the forward-table lookup count. -/
def encodeLoopT : List Nat → Nat × Except PyErr (List Nat)
  | [] => (0, Except.ok [])
  | x :: xs =>
    match encodeChunkT x with
    | (n, Except.error e) => (n, Except.error e)
    | (n, Except.ok cs) =>
      match encodeLoopT xs with
      | (m, Except.error e) => (n + m, Except.error e)
      | (m, Except.ok rest) => (n + m, Except.ok (cs ++ rest))

/-- b85_encode (b85.py lines 69-81) with an instrumentation counter:
the first component is the number of forward-table lookups performed,
the second the returned text or the raised error.  unpack raises
struct.error, before the loop runs, exactly when the buffer length is
not a multiple of 4, since the format holds one unsigned 32-bit slot
per floor(len/4). -/
def b85_encodeT (s : List Nat) : Nat × Except PyErr (List Nat) :=
  if s.length % 4 = 0 then encodeLoopT (unpack4BE s)
  else (0, Except.error PyErr.structUnpackLength)

/-- b85_encode: the result of the instrumented encoder. -/
def b85_encode (s : List Nat) : Except PyErr (List Nat) := (b85_encodeT s).2

/-- b85_encode2 (b85.py lines 90-103): slices 4-byte chunks and builds
the group value by byte arithmetic; a chunk shorter than 4 raises
IndexError at chunk[3].  The five appended characters are the same
expressions as in b85_encode. -/
def b85_encode2 : List Nat → Except PyErr (List Nat)
  | [] => Except.ok []
  | b0 :: rest =>
    match rest with
    | b1 :: b2 :: b3 :: rest2 =>
      match (encodeChunkT (b3 + 256 * (b2 + 256 * (b1 + 256 * b0)))).2 with
      | Except.error e => Except.error e
      | Except.ok cs =>
        match b85_encode2 rest2 with
        | Except.error e => Except.error e
        | Except.ok tail => Except.ok (cs ++ tail)
    | _ => Except.error PyErr.indexError

/-- The inner loop of b85_decode and b85_decode2 (identical in both):
for j in the list js, look up s[i+j] and then the reverse table, folding
bsum to 85 times bsum plus the table value.  The first component counts
the reverse-table lookups performed. -/
def decodeInnerT (s : List Nat) (i : Nat) (bsum : Nat) : List Nat → Nat × Except PyErr Nat
  | [] => (0, Except.ok bsum)
  | j :: js =>
    match pyGet s (i + j) with
    | Except.error e => (0, Except.error e)
    | Except.ok c =>
      match pyGet gsCharToInt c with
      | Except.error e => (1, Except.error e)
      | Except.ok val =>
        match decodeInnerT s i (85 * bsum + val) js with
        | (n, r) => (n + 1, r)

/-- The semantics of pack with the network-order unsigned 32-bit
format: four bytes, most significant first; a value of 2^32 or more
raises struct.error, the standard-size format being range checked. -/
def pack_u32be (x : Nat) : Except PyErr (List Nat) :=
  if x < 4294967296 then
    Except.ok [x / 16777216, x / 65536 % 256, x / 256 % 256, x % 256]
  else Except.error PyErr.structPackRange

/-- The outer loop of b85_decode over the group start offsets, threading
the reverse-table lookup count. -/
def decodeLoopT (s : List Nat) : List Nat → Nat × Except PyErr (List Nat)
  | [] => (0, Except.ok [])
  | i :: rest =>
    match decodeInnerT s i 0 [0, 1, 2, 3, 4] with
    | (n, Except.error e) => (n, Except.error e)
    | (n, Except.ok bsum) =>
      match pack_u32be bsum with
      | Except.error e => (n, Except.error e)
      | Except.ok tmp =>
        match decodeLoopT s rest with
        | (m, Except.error e) => (n + m, Except.error e)
        | (m, Except.ok parts) => (n + m, Except.ok (tmp ++ parts))

/-- The offsets produced by xrange of 0 to len in steps of 5: the
multiples of 5 strictly below len. -/
def groupStarts (len : Nat) : List Nat :=
  (List.range ((len + 4) / 5)).map (fun k => 5 * k)

/-- b85_decode (b85.py lines 106-117) with an instrumentation counter:
the first component is the number of reverse-table lookups performed,
the second the returned buffer or the raised error. -/
def b85_decodeT (s : List Nat) : Nat × Except PyErr (List Nat) :=
  decodeLoopT s (groupStarts s.length)

/-- b85_decode: the result of the instrumented decoder. -/
def b85_decode (s : List Nat) : Except PyErr (List Nat) := (b85_decodeT s).2

/-- The outer loop of b85_decode2: same accumulation as b85_decode, but
the four bytes are produced by shifting and masking bsum instead of by
pack, so no range check occurs. -/
def decode2Loop (s : List Nat) : List Nat → Except PyErr (List Nat)
  | [] => Except.ok []
  | i :: rest =>
    match (decodeInnerT s i 0 [0, 1, 2, 3, 4]).2 with
    | Except.error e => Except.error e
    | Except.ok bsum =>
      match decode2Loop s rest with
      | Except.error e => Except.error e
      | Except.ok parts =>
        Except.ok ([bsum / 16777216 % 256, bsum / 65536 % 256,
                    bsum / 256 % 256, bsum % 256] ++ parts)

/-- b85_decode2 (b85.py lines 120-132). -/
def b85_decode2 (s : List Nat) : Except PyErr (List Nat) :=
  decode2Loop s (groupStarts s.length)

/-- Spec-side definition, following the spec text of section 4.2: the
five base-85 digits of a 32-bit value, most significant first, by
division by descending powers of 85. -/
def specDigits (x : Nat) : List Nat :=
  [x / 85 ^ 4, x / 85 ^ 3 % 85, x / 85 ^ 2 % 85, x / 85 % 85, x % 85]

/-- Spec-side definition, following the spec text of section 4.2: group
the buffer into consecutive 4-byte groups, read each as a big-endian
unsigned 32-bit integer, and emit the forward-table characters of its
five digits in order. -/
def specEncodeGroups : List Nat → List Nat
  | b0 :: b1 :: b2 :: b3 :: rest =>
      (specDigits (((b0 * 256 + b1) * 256 + b2) * 256 + b3)).map
        (fun d => gsIntToChar.getD d 0) ++ specEncodeGroups rest
  | _ => []

/-- The accumulated value of each consecutive 5-character group of a
text, folding the reverse-table digits left to right as the decoders
do. -/
def groupValues5 : List Nat → List Nat
  | c0 :: c1 :: c2 :: c3 :: c4 :: rest =>
      (85 * (85 * (85 * (85 * gsCharToInt.getD c0 0 + gsCharToInt.getD c1 0)
          + gsCharToInt.getD c2 0) + gsCharToInt.getD c3 0) + gsCharToInt.getD c4 0)
        :: groupValues5 rest
  | _ => []

/-- Spec-side definition, following the spec text of section 4.3: the
four big-endian bytes of a group value reduced modulo 2^32. -/
def wrapBytesBE (v : Nat) : List Nat :=
  [v % 4294967296 / 16777216, v % 4294967296 / 65536 % 256,
   v % 4294967296 / 256 % 256, v % 4294967296 % 256]

/-- The five characters the encoder emits for one group value. -/
def encChars (x : Nat) : List Nat :=
  (specDigits x).map (fun d => gsIntToChar.getD d 0)

/-- The four bytes pack produces for an in-range 32-bit value. -/
def bytes4 (v : Nat) : List Nat :=
  [v / 16777216, v / 65536 % 256, v / 256 % 256, v % 256]

/-- Chunk-structured restatement of the b85_decode loop: the offset
arithmetic of decodeLoopT over groupStarts is proved equal to this
direct recursion on consecutive 5-character groups. -/
def chunkDecode : List Nat → Nat × Except PyErr (List Nat)
  | c0 :: c1 :: c2 :: c3 :: c4 :: rest =>
    match decodeInnerT [c0, c1, c2, c3, c4] 0 0 [0, 1, 2, 3, 4] with
    | (n, Except.error e) => (n, Except.error e)
    | (n, Except.ok bsum) =>
      match pack_u32be bsum with
      | Except.error e => (n, Except.error e)
      | Except.ok tmp =>
        match chunkDecode rest with
        | (m, Except.error e) => (n + m, Except.error e)
        | (m, Except.ok parts) => (n + m, Except.ok (tmp ++ parts))
  | _ => (0, Except.ok [])

/-- Chunk-structured restatement of the b85_decode2 loop. -/
def chunkDecode2 : List Nat → Except PyErr (List Nat)
  | c0 :: c1 :: c2 :: c3 :: c4 :: rest =>
    match (decodeInnerT [c0, c1, c2, c3, c4] 0 0 [0, 1, 2, 3, 4]).2 with
    | Except.error e => Except.error e
    | Except.ok bsum =>
      match chunkDecode2 rest with
      | Except.error e => Except.error e
      | Except.ok parts =>
        Except.ok ([bsum / 16777216 % 256, bsum / 65536 % 256,
                    bsum / 256 % 256, bsum % 256] ++ parts)
  | _ => Except.ok []

/-! Facts about the two tables, each checked by evaluation. -/

/-- Forward lookups at digits below 85 are in bounds. -/
theorem tbl_fwd_get : ∀ d < 85, gsIntToChar.get? d = some (gsIntToChar.getD d 0) := by
  decide

/-- Every alphabet character value is a byte. -/
theorem tbl_fwd_lt : ∀ d < 85, gsIntToChar.getD d 0 < 256 := by decide

/-- The reverse table undoes the forward table. -/
theorem tbl_rev_roundtrip : ∀ d < 85, gsCharToInt.get? (gsIntToChar.getD d 0) = some d := by
  decide

/-- Reverse lookups at alphabet characters are in bounds. -/
theorem tbl_mem_get : ∀ c ∈ gsIntToChar, gsCharToInt.get? c = some (gsCharToInt.getD c 0) := by
  decide

/-- The reverse-table digit of an alphabet character is a valid digit. -/
theorem tbl_mem_lt85 : ∀ c ∈ gsIntToChar, gsCharToInt.getD c 0 < 85 := by decide

/-- The forward table undoes the reverse table on alphabet characters. -/
theorem tbl_mem_roundtrip : ∀ c ∈ gsIntToChar,
    gsIntToChar.getD (gsCharToInt.getD c 0) 0 = c := by decide

/-- The forward table output is an alphabet character. -/
theorem tbl_fwd_mem : ∀ d < 85, gsIntToChar.getD d 0 ∈ gsIntToChar := by decide

/-! Arithmetic facts about the radix conversion. -/

/-- The spec digits written with the literal constants of the source. -/
theorem specDigits_eq (x : Nat) :
    specDigits x = [x / 52200625, x / 614125 % 85, x / 7225 % 85, x / 85 % 85, x % 85] := by
  norm_num [specDigits]

/-- The encoder body characters of x, written with the literal
constants. -/
theorem encChars_eq (x : Nat) :
    encChars x = [gsIntToChar.getD (x / 52200625) 0, gsIntToChar.getD (x / 614125 % 85) 0,
      gsIntToChar.getD (x / 7225 % 85) 0, gsIntToChar.getD (x / 85 % 85) 0,
      gsIntToChar.getD (x % 85) 0] := by
  unfold encChars
  rw [specDigits_eq]
  rfl

/-- Folding the five digit values of x back by multiply-accumulate
recovers x. -/
theorem digits_reconstruct (x : Nat) :
    85 * (85 * (85 * (85 * (85 * 0 + x / 52200625) + x / 614125 % 85)
      + x / 7225 % 85) + x / 85 % 85) + x % 85 = x := by
  omega

/-- The leading digit of a 32-bit value is at most 82, in particular
below 85, and the remaining digits are below 85 outright. -/
theorem digit0_le (x : Nat) (h : x < 4294967296) : x / 52200625 ≤ 82 := by
  omega

/-- A big-endian 4-byte value is a 32-bit value and splits back into
its bytes. -/
theorem u32_of_bytes (b0 b1 b2 b3 : Nat)
    (h0 : b0 < 256) (h1 : b1 < 256) (h2 : b2 < 256) (h3 : b3 < 256) :
    (((b0 * 256 + b1) * 256 + b2) * 256 + b3) < 4294967296 ∧
    bytes4 (((b0 * 256 + b1) * 256 + b2) * 256 + b3) = [b0, b1, b2, b3] := by
  unfold bytes4
  refine ⟨by omega, ?_⟩
  simp only [List.cons.injEq, and_true]
  refine ⟨by omega, by omega, by omega, by omega⟩

/-- The bytes pack produces reassemble to the packed 32-bit value, and
each is below 256. -/
theorem bytes_of_u32 (v : Nat) (h : v < 4294967296) :
    ((v / 16777216 * 256 + v / 65536 % 256) * 256 + v / 256 % 256) * 256 + v % 256 = v ∧
    v / 16777216 < 256 := by
  omega

/-- Base-85 digit extraction undoes the multiply-accumulate fold when
the four low digits are valid. -/
theorem digits_unique (d0 d1 d2 d3 d4 v : Nat)
    (h1 : d1 < 85) (h2 : d2 < 85) (h3 : d3 < 85) (h4 : d4 < 85)
    (hv : v = 85 * (85 * (85 * (85 * d0 + d1) + d2) + d3) + d4) :
    v / 52200625 = d0 ∧ v / 614125 % 85 = d1 ∧ v / 7225 % 85 = d2 ∧
    v / 85 % 85 = d3 ∧ v % 85 = d4 := by
  subst hv; omega

/-- The masked shifts of b85_decode2 agree with reducing modulo 2^32
and then taking big-endian bytes. -/
theorem wrap_shift (v : Nat) :
    wrapBytesBE v = [v / 16777216 % 256, v / 65536 % 256, v / 256 % 256, v % 256] := by
  unfold wrapBytesBE
  simp only [List.cons.injEq, and_true]
  refine ⟨by omega, by omega, by omega, by omega⟩

/-! Bridging the index arithmetic of the loops to chunk recursion. -/

/-- Indexing past a 5-element prefix lands in the suffix. -/
theorem get_shift5 (c0 c1 c2 c3 c4 : Nat) (l : List Nat) (m : Nat) :
    (c0 :: c1 :: c2 :: c3 :: c4 :: l).get? (m + 5) = l.get? m := rfl

/-- The inner decode loop only looks at the characters it indexes, so
two strings agreeing at the indexed positions give the same result. -/
theorem decodeInnerT_congr (s s2 : List Nat) (i i2 : Nat) :
    ∀ (js : List Nat) (b : Nat),
      (∀ j ∈ js, s.get? (i + j) = s2.get? (i2 + j)) →
      decodeInnerT s i b js = decodeInnerT s2 i2 b js := by
  intro js
  induction js with
  | nil => intro b _; rfl
  | cons j js ih =>
    intro b h
    have hj := h j (List.mem_cons_self j js)
    have hrest : ∀ a ∈ js, s.get? (i + a) = s2.get? (i2 + a) :=
      fun a ha => h a (List.mem_cons_of_mem _ ha)
    simp only [decodeInnerT, pyGet, hj]
    cases h2 : s2.get? (i2 + j) with
    | none => rfl
    | some c =>
      simp only [h2]
      cases h3 : gsCharToInt.get? c with
      | none => rfl
      | some val =>
        simp only [h3]
        rw [ih _ hrest]

/-- Shifting every group start past a 5-element prefix drops the
prefix. -/
theorem decodeLoopT_shift (c0 c1 c2 c3 c4 : Nat) (rest : List Nat) :
    ∀ L : List Nat,
      decodeLoopT (c0 :: c1 :: c2 :: c3 :: c4 :: rest) (L.map (fun a => a + 5)) =
        decodeLoopT rest L := by
  intro L
  induction L with
  | nil => rfl
  | cons a L ih =>
    have hcong : decodeInnerT (c0 :: c1 :: c2 :: c3 :: c4 :: rest) (a + 5) 0 [0, 1, 2, 3, 4] =
        decodeInnerT rest a 0 [0, 1, 2, 3, 4] := by
      apply decodeInnerT_congr
      intro j hj
      have hstep : a + 5 + j = a + j + 5 := by omega
      rw [hstep, get_shift5]
    simp only [List.map_cons, decodeLoopT, hcong, ih]

/-- Shifting every group start past a 5-element prefix drops the
prefix, for the b85_decode2 loop. -/
theorem decode2Loop_shift (c0 c1 c2 c3 c4 : Nat) (rest : List Nat) :
    ∀ L : List Nat,
      decode2Loop (c0 :: c1 :: c2 :: c3 :: c4 :: rest) (L.map (fun a => a + 5)) =
        decode2Loop rest L := by
  intro L
  induction L with
  | nil => rfl
  | cons a L ih =>
    have hcong : decodeInnerT (c0 :: c1 :: c2 :: c3 :: c4 :: rest) (a + 5) 0 [0, 1, 2, 3, 4] =
        decodeInnerT rest a 0 [0, 1, 2, 3, 4] := by
      apply decodeInnerT_congr
      intro j hj
      have hstep : a + 5 + j = a + j + 5 := by omega
      rw [hstep, get_shift5]
    simp only [List.map_cons, decode2Loop, hcong, ih]

/-- Adding one full group shifts the start offsets by 5. -/
theorem groupStarts_add5 (n : Nat) :
    groupStarts (n + 5) = 0 :: (groupStarts n).map (fun a => a + 5) := by
  unfold groupStarts
  have h : (n + 5 + 4) / 5 = (n + 4) / 5 + 1 := by omega
  rw [h, List.range_succ_eq_map]
  simp only [List.map_cons, List.map_map]
  rfl

/-- Evaluation of the inner decode loop on one explicit 5-character
group whose reverse lookups all succeed. -/
theorem decodeInnerT_five (a b c d e va vb vc vd ve : Nat)
    (ha : gsCharToInt.get? a = some va) (hb : gsCharToInt.get? b = some vb)
    (hc : gsCharToInt.get? c = some vc) (hd : gsCharToInt.get? d = some vd)
    (he : gsCharToInt.get? e = some ve) :
    decodeInnerT [a, b, c, d, e] 0 0 [0, 1, 2, 3, 4] =
      (5, Except.ok (85 * (85 * (85 * (85 * (85 * 0 + va) + vb) + vc) + vd) + ve)) := by
  simp only [decodeInnerT, pyGet, List.get?, ha, hb, hc, hd, he]

/-- b85_decode agrees with the chunk-structured recursion on inputs of
5-aligned length. -/
theorem decodeT_eq_chunk : ∀ (k : Nat) (s : List Nat), s.length = 5 * k →
    b85_decodeT s = chunkDecode s := by
  intro k
  induction k with
  | zero =>
    intro s hs
    have hnil : s = [] := List.length_eq_zero.mp (by omega)
    subst hnil; rfl
  | succ k ih =>
    intro s hs
    rcases s with _ | ⟨c0, _ | ⟨c1, _ | ⟨c2, _ | ⟨c3, _ | ⟨c4, rest⟩⟩⟩⟩⟩
    all_goals simp only [List.length_cons, List.length_nil] at hs
    · omega
    · omega
    · omega
    · omega
    · omega
    · have hrest : rest.length = 5 * k := by omega
      have hlen : (c0 :: c1 :: c2 :: c3 :: c4 :: rest).length = rest.length + 5 := by
        simp only [List.length_cons]
      unfold b85_decodeT
      rw [hlen, groupStarts_add5]
      have hinner : decodeInnerT (c0 :: c1 :: c2 :: c3 :: c4 :: rest) 0 0 [0, 1, 2, 3, 4] =
          decodeInnerT [c0, c1, c2, c3, c4] 0 0 [0, 1, 2, 3, 4] := by
        apply decodeInnerT_congr
        intro j hj
        fin_cases hj <;> rfl
      have htail := decodeLoopT_shift c0 c1 c2 c3 c4 rest (groupStarts rest.length)
      have hih : decodeLoopT rest (groupStarts rest.length) = chunkDecode rest :=
        ih rest hrest
      simp only [decodeLoopT, chunkDecode, hinner, htail, hih]

/-- b85_decode2 agrees with the chunk-structured recursion on inputs of
5-aligned length. -/
theorem decode2_eq_chunk : ∀ (k : Nat) (s : List Nat), s.length = 5 * k →
    b85_decode2 s = chunkDecode2 s := by
  intro k
  induction k with
  | zero =>
    intro s hs
    have hnil : s = [] := List.length_eq_zero.mp (by omega)
    subst hnil; rfl
  | succ k ih =>
    intro s hs
    rcases s with _ | ⟨c0, _ | ⟨c1, _ | ⟨c2, _ | ⟨c3, _ | ⟨c4, rest⟩⟩⟩⟩⟩
    all_goals simp only [List.length_cons, List.length_nil] at hs
    · omega
    · omega
    · omega
    · omega
    · omega
    · have hrest : rest.length = 5 * k := by omega
      have hlen : (c0 :: c1 :: c2 :: c3 :: c4 :: rest).length = rest.length + 5 := by
        simp only [List.length_cons]
      unfold b85_decode2
      rw [hlen, groupStarts_add5]
      have hinner : decodeInnerT (c0 :: c1 :: c2 :: c3 :: c4 :: rest) 0 0 [0, 1, 2, 3, 4] =
          decodeInnerT [c0, c1, c2, c3, c4] 0 0 [0, 1, 2, 3, 4] := by
        apply decodeInnerT_congr
        intro j hj
        fin_cases hj <;> rfl
      have htail := decode2Loop_shift c0 c1 c2 c3 c4 rest (groupStarts rest.length)
      have hih : decode2Loop rest (groupStarts rest.length) = chunkDecode2 rest :=
        ih rest hrest
      simp only [decode2Loop, chunkDecode2, hinner, htail, hih]

/-- The encoder body succeeds on every 32-bit value, emitting the
forward-table characters of the five spec digits. -/
theorem encodeChunkT_ok (x : Nat) (h : x < 4294967296) :
    encodeChunkT x = (5, Except.ok (encChars x)) := by
  have h0 : x / 52200625 < 85 := by omega
  have h1 : x / 614125 % 85 < 85 := Nat.mod_lt _ (by norm_num)
  have h2 : x / 7225 % 85 < 85 := Nat.mod_lt _ (by norm_num)
  have h3 : x / 85 % 85 < 85 := Nat.mod_lt _ (by norm_num)
  have h4 : x % 85 < 85 := Nat.mod_lt _ (by norm_num)
  simp only [encodeChunkT, pyGet, tbl_fwd_get _ h0, tbl_fwd_get _ h1, tbl_fwd_get _ h2,
    tbl_fwd_get _ h3, tbl_fwd_get _ h4, encChars, specDigits_eq, List.map]
  norm_num

/-- Every unpacked group value of a byte buffer is a 32-bit value. -/
theorem unpack4BE_lt (s : List Nat) (h : ∀ b ∈ s, b < 256) :
    ∀ v ∈ unpack4BE s, v < 4294967296 := by
  induction s using unpack4BE.induct with
  | case1 b0 b1 b2 b3 rest ih =>
    intro v hv
    simp only [unpack4BE, List.mem_cons] at hv
    rcases hv with rfl | hv
    · have hb0 := h b0 (by simp)
      have hb1 := h b1 (by simp)
      have hb2 := h b2 (by simp)
      have hb3 := h b3 (by simp)
      omega
    · exact ih (fun b hb => h b (by simp [hb])) v hv
  | case2 s hshape =>
    intro v hv
    rcases s with _ | ⟨b0, _ | ⟨b1, _ | ⟨b2, _ | ⟨b3, rest⟩⟩⟩⟩ <;>
      simp [unpack4BE] at hv
    exact absurd rfl (hshape b0 b1 b2 b3 rest)

/-- The number of unpacked group values of a 4-aligned buffer. -/
theorem unpack4BE_length : ∀ (k : Nat) (s : List Nat), s.length = 4 * k →
    (unpack4BE s).length = k := by
  intro k
  induction k with
  | zero =>
    intro s hs
    have hnil : s = [] := List.length_eq_zero.mp (by omega)
    subst hnil; rfl
  | succ k ih =>
    intro s hs
    rcases s with _ | ⟨b0, _ | ⟨b1, _ | ⟨b2, _ | ⟨b3, rest⟩⟩⟩⟩
    all_goals simp only [List.length_cons, List.length_nil] at hs
    · omega
    · omega
    · omega
    · omega
    · simp only [unpack4BE, List.length_cons]
      rw [ih rest (by omega)]

/-- The spec-side grouped encoder equals mapping the encoder body over
the unpacked values. -/
theorem specEncodeGroups_eq : ∀ (k : Nat) (s : List Nat), s.length = 4 * k →
    specEncodeGroups s = ((unpack4BE s).map encChars).flatten := by
  intro k
  induction k with
  | zero =>
    intro s hs
    have hnil : s = [] := List.length_eq_zero.mp (by omega)
    subst hnil; rfl
  | succ k ih =>
    intro s hs
    rcases s with _ | ⟨b0, _ | ⟨b1, _ | ⟨b2, _ | ⟨b3, rest⟩⟩⟩⟩
    all_goals simp only [List.length_cons, List.length_nil] at hs
    · omega
    · omega
    · omega
    · omega
    · simp only [specEncodeGroups, unpack4BE, List.map_cons, List.flatten]
      rw [ih rest (by omega)]
      rfl

/-- The encoder loop succeeds on 32-bit values and returns the joined
group characters, after five lookups per group. -/
theorem encodeLoopT_ok (vs : List Nat) (h : ∀ v ∈ vs, v < 4294967296) :
    encodeLoopT vs = (5 * vs.length, Except.ok ((vs.map encChars).flatten)) := by
  induction vs with
  | nil => rfl
  | cons v vs ih =>
    have hv := encodeChunkT_ok v (h v (by simp))
    have ihh := ih (fun w hw => h w (by simp [hw]))
    simp only [encodeLoopT, hv, ihh, List.map_cons, List.flatten, List.length_cons,
      Prod.mk.injEq]
    exact ⟨by omega, by trivial⟩

/-- b85_encode on a 4-aligned byte buffer: the group count and the
joined output. -/
theorem b85_encodeT_ok (s : List Nat) (h4 : s.length % 4 = 0) (hb : ∀ b ∈ s, b < 256) :
    b85_encodeT s = (5 * (s.length / 4), Except.ok (((unpack4BE s).map encChars).flatten)) := by
  unfold b85_encodeT
  rw [if_pos h4, encodeLoopT_ok _ (unpack4BE_lt s hb),
    unpack4BE_length (s.length / 4) s (by omega)]

/-- Decoding the five characters the encoder emits for a 32-bit value
recovers the value and packs back to its four bytes. -/
theorem chunkDecode_encoded (vs : List Nat) (h : ∀ v ∈ vs, v < 4294967296) :
    chunkDecode ((vs.map encChars).flatten) =
      (5 * vs.length, Except.ok ((vs.map bytes4).flatten)) := by
  induction vs with
  | nil => rfl
  | cons v vs ih =>
    have hv : v < 4294967296 := h v (by simp)
    have ihh := ih (fun w hw => h w (by simp [hw]))
    have henc := encChars_eq v
    have hfive := decodeInnerT_five
      (gsIntToChar.getD (v / 52200625) 0) (gsIntToChar.getD (v / 614125 % 85) 0)
      (gsIntToChar.getD (v / 7225 % 85) 0) (gsIntToChar.getD (v / 85 % 85) 0)
      (gsIntToChar.getD (v % 85) 0)
      (v / 52200625) (v / 614125 % 85) (v / 7225 % 85) (v / 85 % 85) (v % 85)
      (tbl_rev_roundtrip _ (by omega))
      (tbl_rev_roundtrip _ (Nat.mod_lt _ (by norm_num)))
      (tbl_rev_roundtrip _ (Nat.mod_lt _ (by norm_num)))
      (tbl_rev_roundtrip _ (Nat.mod_lt _ (by norm_num)))
      (tbl_rev_roundtrip _ (Nat.mod_lt _ (by norm_num)))
    have hpack : pack_u32be v = Except.ok (bytes4 v) := by
      unfold pack_u32be bytes4; rw [if_pos hv]
    simp only [List.map_cons, List.flatten, henc, List.cons_append, List.nil_append]
    simp only [chunkDecode, hfive, digits_reconstruct v, hpack, ihh, Prod.mk.injEq,
      List.length_cons]
    exact ⟨by omega, by trivial⟩

/-- Decoding one alphabet-only 5-character group accumulates exactly
its groupValues5 entry. -/
theorem decodeInnerT_alpha (c0 c1 c2 c3 c4 : Nat)
    (h0 : c0 ∈ gsIntToChar) (h1 : c1 ∈ gsIntToChar) (h2 : c2 ∈ gsIntToChar)
    (h3 : c3 ∈ gsIntToChar) (h4 : c4 ∈ gsIntToChar) :
    decodeInnerT [c0, c1, c2, c3, c4] 0 0 [0, 1, 2, 3, 4] =
      (5, Except.ok (85 * (85 * (85 * (85 * gsCharToInt.getD c0 0
        + gsCharToInt.getD c1 0) + gsCharToInt.getD c2 0) + gsCharToInt.getD c3 0)
        + gsCharToInt.getD c4 0)) := by
  rw [decodeInnerT_five c0 c1 c2 c3 c4 _ _ _ _ _ (tbl_mem_get _ h0) (tbl_mem_get _ h1)
    (tbl_mem_get _ h2) (tbl_mem_get _ h3) (tbl_mem_get _ h4)]
  norm_num

/-- Decoding an alphabet-only text whose group values are all 32-bit
values succeeds and outputs the packed bytes of the group values. -/
theorem chunkDecode_alpha : ∀ (k : Nat) (t : List Nat), t.length = 5 * k →
    (∀ c ∈ t, c ∈ gsIntToChar) → (∀ v ∈ groupValues5 t, v < 4294967296) →
    chunkDecode t = (5 * k, Except.ok (((groupValues5 t).map bytes4).flatten)) := by
  intro k
  induction k with
  | zero =>
    intro t ht _ _
    have hnil : t = [] := List.length_eq_zero.mp (by omega)
    subst hnil; rfl
  | succ k ih =>
    intro t ht hmem hval
    rcases t with _ | ⟨c0, _ | ⟨c1, _ | ⟨c2, _ | ⟨c3, _ | ⟨c4, rest⟩⟩⟩⟩⟩
    all_goals simp only [List.length_cons, List.length_nil] at ht
    · omega
    · omega
    · omega
    · omega
    · omega
    · have hrest : rest.length = 5 * k := by omega
      have hv : (85 * (85 * (85 * (85 * gsCharToInt.getD c0 0 + gsCharToInt.getD c1 0)
          + gsCharToInt.getD c2 0) + gsCharToInt.getD c3 0) + gsCharToInt.getD c4 0)
          < 4294967296 := hval _ (by simp [groupValues5])
      have hfive := decodeInnerT_alpha c0 c1 c2 c3 c4
        (hmem c0 (by simp)) (hmem c1 (by simp)) (hmem c2 (by simp))
        (hmem c3 (by simp)) (hmem c4 (by simp))
      have hpack : pack_u32be (85 * (85 * (85 * (85 * gsCharToInt.getD c0 0
          + gsCharToInt.getD c1 0) + gsCharToInt.getD c2 0) + gsCharToInt.getD c3 0)
          + gsCharToInt.getD c4 0) = Except.ok (bytes4 (85 * (85 * (85 * (85
          * gsCharToInt.getD c0 0 + gsCharToInt.getD c1 0) + gsCharToInt.getD c2 0)
          + gsCharToInt.getD c3 0) + gsCharToInt.getD c4 0)) := by
        unfold pack_u32be bytes4; rw [if_pos hv]
      have ihh := ih rest hrest (fun c hc => hmem c (by simp [hc]))
        (fun v hvv => hval v (by simp [groupValues5, hvv]))
      simp only [chunkDecode, hfive, hpack, ihh, groupValues5, List.map_cons,
        List.flatten, Prod.mk.injEq]
      exact ⟨by omega, by trivial⟩

/-- Unpacking the flattened packed bytes of 32-bit values recovers the
values. -/
theorem unpack_bytes4_flatten (ws : List Nat) (h : ∀ v ∈ ws, v < 4294967296) :
    unpack4BE ((ws.map bytes4).flatten) = ws := by
  induction ws with
  | nil => rfl
  | cons v ws ih =>
    have hv : v < 4294967296 := h v (by simp)
    have ihh := ih (fun w hw => h w (by simp [hw]))
    simp only [List.map_cons, List.flatten, bytes4, List.cons_append, List.nil_append,
      List.append, unpack4BE, ihh, List.cons.injEq, and_true]
    omega

/-- The flattened packed bytes of k values have length 4 times k. -/
theorem bytes4_flatten_length (ws : List Nat) :
    ((ws.map bytes4).flatten).length = 4 * ws.length := by
  induction ws with
  | nil => rfl
  | cons v ws ih =>
    simp only [List.map_cons, List.flatten, bytes4, List.length_append, ih,
      List.length_cons]
    simp only [List.length_cons, List.length_nil]
    omega

/-- Every packed byte of a 32-bit value is below 256. -/
theorem bytes4_flatten_lt (ws : List Nat) (h : ∀ v ∈ ws, v < 4294967296) :
    ∀ b ∈ (ws.map bytes4).flatten, b < 256 := by
  induction ws with
  | nil => intro b hb; simp at hb
  | cons v ws ih =>
    intro b hb
    have hv : v < 4294967296 := h v (by simp)
    simp only [List.map_cons, List.flatten, bytes4, List.mem_append, List.mem_cons,
      List.not_mem_nil, or_false] at hb
    rcases hb with hb | hb
    · rcases hb with rfl | rfl | rfl | rfl
      · omega
      · omega
      · omega
      · omega
    · exact ih (fun w hw => h w (by simp [hw])) b hb

/-- Re-encoding the group values of an alphabet-only text yields the
text back. -/
theorem encChars_groupValues : ∀ (k : Nat) (t : List Nat), t.length = 5 * k →
    (∀ c ∈ t, c ∈ gsIntToChar) → (∀ v ∈ groupValues5 t, v < 4294967296) →
    ((groupValues5 t).map encChars).flatten = t := by
  intro k
  induction k with
  | zero =>
    intro t ht _ _
    have hnil : t = [] := List.length_eq_zero.mp (by omega)
    subst hnil; rfl
  | succ k ih =>
    intro t ht hmem hval
    rcases t with _ | ⟨c0, _ | ⟨c1, _ | ⟨c2, _ | ⟨c3, _ | ⟨c4, rest⟩⟩⟩⟩⟩
    all_goals simp only [List.length_cons, List.length_nil] at ht
    · omega
    · omega
    · omega
    · omega
    · omega
    · have hrest : rest.length = 5 * k := by omega
      have hd := digits_unique (gsCharToInt.getD c0 0) (gsCharToInt.getD c1 0)
        (gsCharToInt.getD c2 0) (gsCharToInt.getD c3 0) (gsCharToInt.getD c4 0)
        _ (tbl_mem_lt85 c1 (hmem c1 (by simp))) (tbl_mem_lt85 c2 (hmem c2 (by simp)))
        (tbl_mem_lt85 c3 (hmem c3 (by simp))) (tbl_mem_lt85 c4 (hmem c4 (by simp))) rfl
      have ihh := ih rest hrest (fun c hc => hmem c (by simp [hc]))
        (fun v hvv => hval v (by simp [groupValues5, hvv]))
      have hencv : encChars (85 * (85 * (85 * (85 * gsCharToInt.getD c0 0
          + gsCharToInt.getD c1 0) + gsCharToInt.getD c2 0) + gsCharToInt.getD c3 0)
          + gsCharToInt.getD c4 0) = [c0, c1, c2, c3, c4] := by
        rw [encChars_eq, hd.1, hd.2.1, hd.2.2.1, hd.2.2.2.1, hd.2.2.2.2,
          tbl_mem_roundtrip c0 (hmem c0 (by simp)), tbl_mem_roundtrip c1 (hmem c1 (by simp)),
          tbl_mem_roundtrip c2 (hmem c2 (by simp)), tbl_mem_roundtrip c3 (hmem c3 (by simp)),
          tbl_mem_roundtrip c4 (hmem c4 (by simp))]
      simp only [groupValues5, List.map_cons, List.flatten, hencv, ihh, List.cons_append,
        List.nil_append, List.append]

/-- The number of group values of a 5-aligned text. -/
theorem groupValues5_length : ∀ (k : Nat) (t : List Nat), t.length = 5 * k →
    (groupValues5 t).length = k := by
  intro k
  induction k with
  | zero =>
    intro t ht
    have hnil : t = [] := List.length_eq_zero.mp (by omega)
    subst hnil; rfl
  | succ k ih =>
    intro t ht
    rcases t with _ | ⟨c0, _ | ⟨c1, _ | ⟨c2, _ | ⟨c3, _ | ⟨c4, rest⟩⟩⟩⟩⟩
    all_goals simp only [List.length_cons, List.length_nil] at ht
    · omega
    · omega
    · omega
    · omega
    · omega
    · simp only [groupValues5, List.length_cons]
      rw [ih rest (by omega)]

/-- b85_decode2 on an alphabet-only 5-aligned text: always succeeds,
emitting for each group the big-endian bytes of the accumulator reduced
modulo 2^32. -/
theorem chunkDecode2_alpha : ∀ (k : Nat) (t : List Nat), t.length = 5 * k →
    (∀ c ∈ t, c ∈ gsIntToChar) →
    chunkDecode2 t = Except.ok (((groupValues5 t).map wrapBytesBE).flatten) := by
  intro k
  induction k with
  | zero =>
    intro t ht _
    have hnil : t = [] := List.length_eq_zero.mp (by omega)
    subst hnil; rfl
  | succ k ih =>
    intro t ht hmem
    rcases t with _ | ⟨c0, _ | ⟨c1, _ | ⟨c2, _ | ⟨c3, _ | ⟨c4, rest⟩⟩⟩⟩⟩
    all_goals simp only [List.length_cons, List.length_nil] at ht
    · omega
    · omega
    · omega
    · omega
    · omega
    · have hrest : rest.length = 5 * k := by omega
      have hfive := decodeInnerT_alpha c0 c1 c2 c3 c4
        (hmem c0 (by simp)) (hmem c1 (by simp)) (hmem c2 (by simp))
        (hmem c3 (by simp)) (hmem c4 (by simp))
      have ihh := ih rest hrest (fun c hc => hmem c (by simp [hc]))
      simp only [chunkDecode2, hfive, ihh, groupValues5, List.map_cons, List.flatten,
        wrap_shift]

/-- A successful inner decode pass indexed every position of its
group. -/
theorem decodeInnerT_ok_get (s : List Nat) (i : Nat) :
    ∀ (js : List Nat) (b n v : Nat), decodeInnerT s i b js = (n, Except.ok v) →
      ∀ j ∈ js, ∃ c, s.get? (i + j) = some c := by
  intro js
  induction js with
  | nil =>
    intro b n v _ j hj
    simp at hj
  | cons j js ih =>
    intro b n v heq j2 hj2
    cases hg : s.get? (i + j) with
    | none =>
      simp only [decodeInnerT, pyGet, hg] at heq
      cases heq
    | some c =>
      simp only [decodeInnerT, pyGet, hg] at heq
      cases hq : gsCharToInt.get? c with
      | none =>
        rw [hq] at heq
        cases heq
      | some val =>
        simp only [hq] at heq
        rcases hdec : decodeInnerT s i (85 * b + val) js with ⟨n3, r⟩
        rw [hdec] at heq
        have hr : r = Except.ok v := congrArg Prod.snd heq
        rcases List.mem_cons.mp hj2 with rfl | hmem
        · exact ⟨c, hg⟩
        · exact ih (85 * b + val) n3 v (by rw [hdec, hr]) j2 hmem

/-- The outer decode loop fails whenever some listed group start has no
full 5-character group available. -/
theorem decodeLoopT_err (s : List Nat) :
    ∀ L : List Nat, (∃ i ∈ L, s.length < i + 5) →
      ∃ e, (decodeLoopT s L).2 = Except.error e := by
  intro L
  induction L with
  | nil =>
    intro h
    rcases h with ⟨i, hi, _⟩
    simp at hi
  | cons a L ih =>
    intro h
    rcases hdec : decodeInnerT s a 0 [0, 1, 2, 3, 4] with ⟨n, r⟩
    cases r with
    | error e => exact ⟨e, by simp only [decodeLoopT, hdec]⟩
    | ok bsum =>
      have hfull : ¬ s.length < a + 5 := by
        intro hlt
        obtain ⟨c, hc⟩ := decodeInnerT_ok_get s a [0, 1, 2, 3, 4] 0 n bsum hdec 4 (by simp)
        have hnone : s.get? (a + 4) = none :=
          List.get?_eq_none.mpr (by omega)
        rw [hnone] at hc
        cases hc
      rcases h with ⟨i, hi, hlen⟩
      rcases List.mem_cons.mp hi with rfl | hi2
      · exact absurd hlen hfull
      · obtain ⟨e, he⟩ := ih ⟨i, hi2, hlen⟩
        cases hp : pack_u32be bsum with
        | error e2 => exact ⟨e2, by simp only [decodeLoopT, hdec, hp]⟩
        | ok tmp =>
          refine ⟨e, ?_⟩
          rcases hLd : decodeLoopT s L with ⟨m, r2⟩
          have hr2 : r2 = Except.error e := by rw [hLd] at he; exact he
          subst hr2
          simp only [decodeLoopT, hdec, hp, hLd]

/-- When its first indexed character exists, the inner decode loop
performs at least one reverse-table lookup. -/
theorem decodeInnerT_count (s : List Nat) (i b j : Nat) (js : List Nat) (c : Nat)
    (h : s.get? (i + j) = some c) : 1 ≤ (decodeInnerT s i b (j :: js)).1 := by
  simp only [decodeInnerT, pyGet, h]
  cases hq : gsCharToInt.get? c with
  | none => simp
  | some val =>
    simp only [hq]
    rcases h2 : decodeInnerT s i (85 * b + val) js with ⟨n, r⟩
    simp only [h2]
    omega

/-- The loop lookup count is at least the count of the head group. -/
theorem decodeLoopT_count (s : List Nat) (a : Nat) (L : List Nat) :
    (decodeInnerT s a 0 [0, 1, 2, 3, 4]).1 ≤ (decodeLoopT s (a :: L)).1 := by
  rcases hdec : decodeInnerT s a 0 [0, 1, 2, 3, 4] with ⟨n, r⟩
  cases r with
  | error e => simp [decodeLoopT, hdec]
  | ok bsum =>
    cases hp : pack_u32be bsum with
    | error e => simp [decodeLoopT, hdec, hp]
    | ok tmp =>
      rcases hLd : decodeLoopT s L with ⟨m, r2⟩
      cases r2 <;> simp [decodeLoopT, hdec, hp, hLd]

/-- A nonempty length yields a loop starting at offset 0. -/
theorem groupStarts_head (n : Nat) (h : 1 ≤ n) : ∃ L, groupStarts n = 0 :: L := by
  unfold groupStarts
  obtain ⟨m, hm⟩ : ∃ m, (n + 4) / 5 = m + 1 := ⟨(n + 4) / 5 - 1, by omega⟩
  rw [hm, List.range_succ_eq_map, List.map_cons, List.map_map]
  exact ⟨List.map ((fun k => 5 * k) ∘ Nat.succ) (List.range m), by norm_num⟩

/-- A 5-misaligned length has a group start whose group is cut off. -/
theorem groupStarts_partial (n : Nat) (h : n % 5 ≠ 0) :
    5 * (n / 5) ∈ groupStarts n ∧ n < 5 * (n / 5) + 5 := by
  constructor
  · exact List.mem_map.mpr ⟨n / 5, List.mem_range.mpr (by omega), rfl⟩
  · omega

/-- On a buffer of 5-misaligned length, b85_decode raises an error, but
only after at least one reverse-table lookup has been performed. -/
theorem b85_decodeT_badlen (s : List Nat) (h : s.length % 5 ≠ 0) :
    1 ≤ (b85_decodeT s).1 ∧ ∃ e, (b85_decodeT s).2 = Except.error e := by
  constructor
  · rcases s with _ | ⟨c, s2⟩
    · simp at h
    · obtain ⟨L, hL⟩ := groupStarts_head (c :: s2).length (by simp)
      unfold b85_decodeT
      rw [hL]
      have hcount := decodeInnerT_count (c :: s2) 0 0 0 [1, 2, 3, 4] c rfl
      exact le_trans hcount (decodeLoopT_count (c :: s2) 0 L)
  · obtain ⟨hmem, hcut⟩ := groupStarts_partial s.length h
    exact decodeLoopT_err s (groupStarts s.length) ⟨5 * (s.length / 5), hmem, hcut⟩

/-- The struct-based and the arithmetic encoder loops agree on
4-aligned buffers. -/
theorem encode2_eq_encodeT : ∀ (k : Nat) (s : List Nat), s.length = 4 * k →
    b85_encode2 s = (encodeLoopT (unpack4BE s)).2 := by
  intro k
  induction k with
  | zero =>
    intro s hs
    have hnil : s = [] := List.length_eq_zero.mp (by omega)
    subst hnil; rfl
  | succ k ih =>
    intro s hs
    rcases s with _ | ⟨b0, _ | ⟨b1, _ | ⟨b2, _ | ⟨b3, rest⟩⟩⟩⟩
    all_goals simp only [List.length_cons, List.length_nil] at hs
    · omega
    · omega
    · omega
    · omega
    · have hx : b3 + 256 * (b2 + 256 * (b1 + 256 * b0)) =
          ((b0 * 256 + b1) * 256 + b2) * 256 + b3 := by ring
      have ihh := ih rest (by omega)
      rcases hc : encodeChunkT (((b0 * 256 + b1) * 256 + b2) * 256 + b3) with ⟨n, rc⟩
      rcases hl : encodeLoopT (unpack4BE rest) with ⟨m, rl⟩
      cases rc <;> cases rl <;>
        simp [b85_encode2, unpack4BE, encodeLoopT, hx, ihh, hc, hl]

/-- The encoded text has five characters per group. -/
theorem encChars_flatten_length (vs : List Nat) :
    ((vs.map encChars).flatten).length = 5 * vs.length := by
  induction vs with
  | nil => rfl
  | cons v vs ih =>
    simp only [List.map_cons, List.flatten, List.length_append, ih, encChars_eq,
      List.length_cons]
    simp only [List.length_cons, List.length_nil]
    omega

/-- Packing the unpacked group values of a 4-aligned byte buffer
restores the buffer. -/
theorem bytes4_unpack_id : ∀ (k : Nat) (s : List Nat), s.length = 4 * k →
    (∀ b ∈ s, b < 256) → ((unpack4BE s).map bytes4).flatten = s := by
  intro k
  induction k with
  | zero =>
    intro s hs _
    have hnil : s = [] := List.length_eq_zero.mp (by omega)
    subst hnil; rfl
  | succ k ih =>
    intro s hs hb
    rcases s with _ | ⟨b0, _ | ⟨b1, _ | ⟨b2, _ | ⟨b3, rest⟩⟩⟩⟩
    all_goals simp only [List.length_cons, List.length_nil] at hs
    · omega
    · omega
    · omega
    · omega
    · have hbytes := u32_of_bytes b0 b1 b2 b3 (hb b0 (by simp)) (hb b1 (by simp))
        (hb b2 (by simp)) (hb b3 (by simp))
      have ihh := ih rest (by omega) (fun b hbm => hb b (by simp [hbm]))
      simp only [unpack4BE, List.map_cons, List.flatten, hbytes.2, ihh, List.cons_append,
        List.nil_append, List.append]

/-- The byte lists produced by pack and by the shift-and-mask loop
agree on 32-bit values. -/
theorem wrap_eq_bytes4 (v : Nat) (h : v < 4294967296) : wrapBytesBE v = bytes4 v := by
  rw [wrap_shift]
  unfold bytes4
  simp only [List.cons.injEq, and_true]
  omega

/-- C1: for every byte buffer b whose length is a multiple of 4,
decoding the encoding of b returns b exactly: b85_decode composed with
b85_encode is the identity on 4-aligned byte buffers. -/
theorem C1_decode_encode_roundtrip (s : List Nat)
    (hlen : s.length % 4 = 0) (hbytes : ∀ b ∈ s, b < 256) :
    Except.bind (b85_encode s) b85_decode = Except.ok s := by
  have hvals := unpack4BE_lt s hbytes
  have henc : b85_encode s = Except.ok (((unpack4BE s).map encChars).flatten) := by
    unfold b85_encode
    rw [b85_encodeT_ok s hlen hbytes]
  rw [henc]
  show b85_decode (((unpack4BE s).map encChars).flatten) = Except.ok s
  unfold b85_decode
  rw [decodeT_eq_chunk ((unpack4BE s).length) _ (encChars_flatten_length (unpack4BE s)),
    chunkDecode_encoded (unpack4BE s) hvals]
  show Except.ok (((unpack4BE s).map bytes4).flatten) = Except.ok s
  rw [bytes4_unpack_id (s.length / 4) s (by omega) hbytes]

/-- C1 witness: the round trip on the concrete buffer 0 0 0 1. -/
theorem C1_decode_encode_roundtrip_witness :
    ([0, 0, 0, 1] : List Nat).length % 4 = 0 ∧ (∀ b ∈ [0, 0, 0, 1], b < 256) ∧
      Except.bind (b85_encode [0, 0, 0, 1]) b85_decode = Except.ok [0, 0, 0, 1] :=
  ⟨by decide, by decide, C1_decode_encode_roundtrip [0, 0, 0, 1] (by decide) (by decide)⟩

/-- C2: the claim fails on the code: the text bang bang bang bang space
has length 5 and contains the non-alphabet space character (byte 32,
whose reverse-table entry is the invalid marker 256), yet b85_decode
does not fail: it returns the corrupted buffer 0 0 1 0, because the
decoder never tests the val it reads against 256. -/
theorem C2_invalid_char_silently_decoded :
    (32 ∉ gsIntToChar) ∧ gsCharToInt.getD 32 0 = 256 ∧
      b85_decode [33, 33, 33, 33, 32] = Except.ok [0, 0, 1, 0] :=
  ⟨by decide, by decide, by decide⟩

/-- C3 counterexample: the text of five z characters is alphabet-only
with length a multiple of 5, but its group accumulates to 85^5 - 1,
which is at least 2^32, so b85_decode raises the pack range error and
the text-side round trip fails. -/
theorem C3_counterexample :
    (∀ c ∈ [122, 122, 122, 122, 122], c ∈ gsIntToChar) ∧
      ([122, 122, 122, 122, 122] : List Nat).length % 5 = 0 ∧
      Except.bind (b85_decode [122, 122, 122, 122, 122]) b85_encode ≠
        Except.ok [122, 122, 122, 122, 122] :=
  ⟨by decide, by decide, by decide⟩

/-- C3 amended: for every alphabet-only text of 5-aligned length all of
whose 5-character group values are below 2^32, re-encoding the decoding
returns the text exactly. -/
theorem C3_encode_decode_roundtrip (t : List Nat)
    (hlen : t.length % 5 = 0) (halpha : ∀ c ∈ t, c ∈ gsIntToChar)
    (hvals : ∀ v ∈ groupValues5 t, v < 4294967296) :
    Except.bind (b85_decode t) b85_encode = Except.ok t := by
  have hk : t.length = 5 * (t.length / 5) := by omega
  have hdec : b85_decode t = Except.ok (((groupValues5 t).map bytes4).flatten) := by
    unfold b85_decode
    rw [decodeT_eq_chunk (t.length / 5) t hk,
      chunkDecode_alpha (t.length / 5) t hk halpha hvals]
  rw [hdec]
  show b85_encode (((groupValues5 t).map bytes4).flatten) = Except.ok t
  unfold b85_encode
  have hblen : (((groupValues5 t).map bytes4).flatten).length % 4 = 0 := by
    rw [bytes4_flatten_length]; omega
  rw [b85_encodeT_ok _ hblen (bytes4_flatten_lt _ hvals)]
  show Except.ok (((unpack4BE (((groupValues5 t).map bytes4).flatten)).map encChars).flatten)
    = Except.ok t
  rw [unpack_bytes4_flatten _ hvals, encChars_groupValues (t.length / 5) t hk halpha hvals]

/-- C3 witness: the round trip on the concrete text bang bang bang bang
hash. -/
theorem C3_encode_decode_roundtrip_witness :
    (∀ c ∈ [33, 33, 33, 33, 35], c ∈ gsIntToChar) ∧
      ([33, 33, 33, 33, 35] : List Nat).length % 5 = 0 ∧
      (∀ v ∈ groupValues5 [33, 33, 33, 33, 35], v < 4294967296) ∧
      Except.bind (b85_decode [33, 33, 33, 33, 35]) b85_encode =
        Except.ok [33, 33, 33, 33, 35] :=
  ⟨by decide, by decide, by decide,
    C3_encode_decode_roundtrip [33, 33, 33, 33, 35] (by decide) (by decide) (by decide)⟩

/-- C4 counterexample: decoding the 1-character text bang, whose length
is not a multiple of 5, does raise an error, but only after one
reverse-table lookup has been performed, so the error is not surfaced
before any table lookup as the claim states. -/
theorem C4_counterexample :
    b85_decodeT [33] = (1, Except.error PyErr.indexError) := by decide

/-- C4 amended: encoding a buffer of 4-misaligned length fails with the
unpack length error before any forward-table lookup (the count is 0)
and produces no output; decoding a text of 5-misaligned length also
fails with an error and produces no output, but at least one
reverse-table lookup happens before the error is raised. -/
theorem C4_length_rejection (s t : List Nat) :
    (s.length % 4 ≠ 0 → b85_encodeT s = (0, Except.error PyErr.structUnpackLength)) ∧
    (t.length % 5 ≠ 0 → 1 ≤ (b85_decodeT t).1 ∧ ∃ e, (b85_decodeT t).2 = Except.error e) := by
  constructor
  · intro h
    unfold b85_encodeT
    rw [if_neg h]
  · exact b85_decodeT_badlen t

/-- C4 witness: the misaligned buffer 0 and the misaligned text
bang. -/
theorem C4_length_rejection_witness :
    ([0] : List Nat).length % 4 ≠ 0 ∧ ([33] : List Nat).length % 5 ≠ 0 ∧
      b85_encodeT [0] = (0, Except.error PyErr.structUnpackLength) ∧
      (1 ≤ (b85_decodeT [33]).1 ∧ ∃ e, (b85_decodeT [33]).2 = Except.error e) :=
  ⟨by decide, by decide, (C4_length_rejection [0] [33]).1 (by decide),
    (C4_length_rejection [0] [33]).2 (by decide)⟩

/-- C5: on every 4-aligned byte buffer the encoder processes 4-byte
groups in order, reads each as a big-endian unsigned 32-bit integer,
and emits for each exactly the five forward-table characters of the
digits value / 85^4, value / 85^3 mod 85, value / 85^2 mod 85,
value / 85 mod 85, value mod 85, in this order. -/
theorem C5_encoder_algorithm (s : List Nat)
    (hlen : s.length % 4 = 0) (hbytes : ∀ b ∈ s, b < 256) :
    b85_encode s = Except.ok (specEncodeGroups s) := by
  unfold b85_encode
  rw [b85_encodeT_ok s hlen hbytes,
    specEncodeGroups_eq (s.length / 4) s (by omega)]

/-- C5 witness: the encoder algorithm on the concrete buffer
1 2 3 4. -/
theorem C5_encoder_algorithm_witness :
    ([1, 2, 3, 4] : List Nat).length % 4 = 0 ∧ (∀ b ∈ [1, 2, 3, 4], b < 256) ∧
      b85_encode [1, 2, 3, 4] = Except.ok (specEncodeGroups [1, 2, 3, 4]) :=
  ⟨by decide, by decide, C5_encoder_algorithm [1, 2, 3, 4] (by decide) (by decide)⟩

/-- C6 counterexample: the alphabet-only 5-character text y z z z z
accumulates to at least 2^32, so b85_decode raises the pack range error
and returns no buffer at all, in particular none of length 4. -/
theorem C6_counterexample :
    (∀ c ∈ [121, 122, 122, 122, 122], c ∈ gsIntToChar) ∧
      ([121, 122, 122, 122, 122] : List Nat).length % 5 = 0 ∧
      b85_decode [121, 122, 122, 122, 122] = Except.error PyErr.structPackRange :=
  ⟨by decide, by decide, by decide⟩

/-- C6 amended: the encoder output length is 5 * length / 4 on
4-aligned byte buffers, and the decoder output length is
4 * length / 5 on alphabet-only 5-aligned texts all of whose group
values are below 2^32. -/
theorem C6_length_law (s t : List Nat) :
    (s.length % 4 = 0 → (∀ b ∈ s, b < 256) →
      ∃ out, b85_encode s = Except.ok out ∧ out.length = 5 * s.length / 4) ∧
    (t.length % 5 = 0 → (∀ c ∈ t, c ∈ gsIntToChar) →
      (∀ v ∈ groupValues5 t, v < 4294967296) →
      ∃ out, b85_decode t = Except.ok out ∧ out.length = 4 * t.length / 5) := by
  constructor
  · intro h4 hb
    refine ⟨((unpack4BE s).map encChars).flatten, ?_, ?_⟩
    · unfold b85_encode
      rw [b85_encodeT_ok s h4 hb]
    · rw [encChars_flatten_length, unpack4BE_length (s.length / 4) s (by omega)]
      omega
  · intro h5 halpha hvals
    have hk : t.length = 5 * (t.length / 5) := by omega
    refine ⟨((groupValues5 t).map bytes4).flatten, ?_, ?_⟩
    · unfold b85_decode
      rw [decodeT_eq_chunk (t.length / 5) t hk,
        chunkDecode_alpha (t.length / 5) t hk halpha hvals]
    · rw [bytes4_flatten_length, groupValues5_length (t.length / 5) t hk]
      omega

/-- C6 witness: the length law on the buffer 1 2 3 4 and the text of
five bang characters. -/
theorem C6_length_law_witness :
    ([1, 2, 3, 4] : List Nat).length % 4 = 0 ∧ (∀ b ∈ [1, 2, 3, 4], b < 256) ∧
      ([33, 33, 33, 33, 33] : List Nat).length % 5 = 0 ∧
      (∀ c ∈ [33, 33, 33, 33, 33], c ∈ gsIntToChar) ∧
      (∀ v ∈ groupValues5 [33, 33, 33, 33, 33], v < 4294967296) ∧
      (∃ out, b85_encode [1, 2, 3, 4] = Except.ok out ∧ out.length = 5 * 4 / 4) ∧
      (∃ out, b85_decode [33, 33, 33, 33, 33] = Except.ok out ∧ out.length = 4 * 5 / 5) :=
  ⟨by decide, by decide, by decide, by decide, by decide,
    (C6_length_law [1, 2, 3, 4] [33, 33, 33, 33, 33]).1 (by decide) (by decide),
    (C6_length_law [1, 2, 3, 4] [33, 33, 33, 33, 33]).2 (by decide) (by decide) (by decide)⟩

/-- C7: on every alphabet-only 5-aligned text, b85_decode2 emits for
each 5-character group the big-endian bytes of the accumulated value
reduced modulo 2^32, including for groups accumulating to 2^32 or
more, by its per-byte shift and mask. -/
theorem C7_decode2_wraps_mod32 (t : List Nat)
    (hlen : t.length % 5 = 0) (halpha : ∀ c ∈ t, c ∈ gsIntToChar) :
    b85_decode2 t = Except.ok (((groupValues5 t).map wrapBytesBE).flatten) := by
  have hk : t.length = 5 * (t.length / 5) := by omega
  rw [decode2_eq_chunk (t.length / 5) t hk, chunkDecode2_alpha (t.length / 5) t hk halpha]

/-- C7 witness: on the text z z z z x, whose single group accumulates
to 85^5 - 3, which is at least 2^32, and wraps. -/
theorem C7_decode2_wraps_mod32_witness :
    ([122, 122, 122, 122, 120] : List Nat).length % 5 = 0 ∧
      (∀ c ∈ [122, 122, 122, 122, 120], c ∈ gsIntToChar) ∧
      b85_decode2 [122, 122, 122, 122, 120] =
        Except.ok (((groupValues5 [122, 122, 122, 122, 120]).map wrapBytesBE).flatten) :=
  ⟨by decide, by decide,
    C7_decode2_wraps_mod32 [122, 122, 122, 122, 120] (by decide) (by decide)⟩

/-- C8 counterexample: the all-255 group unpacks to 2^32 - 1, whose
leading digit is 82, not at most 50 as the claim states. -/
theorem C8_counterexample :
    unpack4BE [255, 255, 255, 255] = [4294967295] ∧
      ¬ (4294967295 / 85 ^ 4 ≤ 50) :=
  ⟨by decide, by decide⟩

/-- C8 amended: for every 32-bit value the leading digit is at most 82,
hence below 85, and all five digits are below 85, so both encoders
succeed on every 4-aligned byte buffer with every forward-table index
in bounds: the encoder has no error conditions there. -/
theorem C8_digit_bounds (x : Nat) (s : List Nat) :
    (x < 4294967296 → x / 85 ^ 4 ≤ 82 ∧ ∀ d ∈ specDigits x, d < 85) ∧
    (s.length % 4 = 0 → (∀ b ∈ s, b < 256) →
      (∃ t1, b85_encode s = Except.ok t1) ∧ (∃ t2, b85_encode2 s = Except.ok t2)) := by
  constructor
  · intro hx
    have hpow : (85 : Nat) ^ 4 = 52200625 := by norm_num
    constructor
    · rw [hpow]
      omega
    · intro d hd
      rw [specDigits_eq] at hd
      simp only [List.mem_cons, List.not_mem_nil, or_false] at hd
      rcases hd with rfl | rfl | rfl | rfl | rfl
      · omega
      · exact Nat.mod_lt _ (by norm_num)
      · exact Nat.mod_lt _ (by norm_num)
      · exact Nat.mod_lt _ (by norm_num)
      · exact Nat.mod_lt _ (by norm_num)
  · intro h4 hb
    constructor
    · refine ⟨((unpack4BE s).map encChars).flatten, ?_⟩
      unfold b85_encode
      rw [b85_encodeT_ok s h4 hb]
    · refine ⟨((unpack4BE s).map encChars).flatten, ?_⟩
      rw [encode2_eq_encodeT (s.length / 4) s (by omega)]
      rw [encodeLoopT_ok _ (unpack4BE_lt s hb)]

/-- C8 witness: the bounds at 2^32 - 1 and the all-255 buffer. -/
theorem C8_digit_bounds_witness :
    (4294967295 : Nat) < 4294967296 ∧
      ([255, 255, 255, 255] : List Nat).length % 4 = 0 ∧
      (∀ b ∈ [255, 255, 255, 255], b < 256) ∧
      (4294967295 / 85 ^ 4 ≤ 82 ∧ ∀ d ∈ specDigits 4294967295, d < 85) ∧
      ((∃ t1, b85_encode [255, 255, 255, 255] = Except.ok t1) ∧
        (∃ t2, b85_encode2 [255, 255, 255, 255] = Except.ok t2)) :=
  ⟨by decide, by decide, by decide,
    (C8_digit_bounds 4294967295 [255, 255, 255, 255]).1 (by decide),
    (C8_digit_bounds 4294967295 [255, 255, 255, 255]).2 (by decide) (by decide)⟩

/-- C9 counterexample: on the alphabet-only text z z z z y, whose group
accumulates to 85^5 - 2, which is at least 2^32, b85_decode raises the
pack range error while b85_decode2 wraps and succeeds, so the two
decoders differ. -/
theorem C9_counterexample :
    (∀ c ∈ [122, 122, 122, 122, 121], c ∈ gsIntToChar) ∧
      ([122, 122, 122, 122, 121] : List Nat).length % 5 = 0 ∧
      b85_decode [122, 122, 122, 122, 121] ≠ b85_decode2 [122, 122, 122, 122, 121] :=
  ⟨by decide, by decide, by decide⟩

/-- C9 amended: b85_encode and b85_encode2 agree on every 4-aligned
buffer, and b85_decode and b85_decode2 agree on every alphabet-only
5-aligned text all of whose group values are below 2^32. -/
theorem C9_variants_agree (s t : List Nat) :
    (s.length % 4 = 0 → b85_encode s = b85_encode2 s) ∧
    (t.length % 5 = 0 → (∀ c ∈ t, c ∈ gsIntToChar) →
      (∀ v ∈ groupValues5 t, v < 4294967296) → b85_decode t = b85_decode2 t) := by
  constructor
  · intro h4
    rw [encode2_eq_encodeT (s.length / 4) s (by omega)]
    unfold b85_encode b85_encodeT
    rw [if_pos h4]
  · intro h5 halpha hvals
    have hk : t.length = 5 * (t.length / 5) := by omega
    unfold b85_decode
    rw [decodeT_eq_chunk (t.length / 5) t hk,
      chunkDecode_alpha (t.length / 5) t hk halpha hvals,
      decode2_eq_chunk (t.length / 5) t hk, chunkDecode2_alpha (t.length / 5) t hk halpha]
    show Except.ok (((groupValues5 t).map bytes4).flatten) =
      Except.ok (((groupValues5 t).map wrapBytesBE).flatten)
    have hmap : (groupValues5 t).map bytes4 = (groupValues5 t).map wrapBytesBE :=
      List.map_congr_left (fun v hv => (wrap_eq_bytes4 v (hvals v hv)).symm)
    rw [hmap]

/-- C9 witness: the encoders on the buffer 9 8 7 6 and the decoders on
the text of five hash characters. -/
theorem C9_variants_agree_witness :
    ([9, 8, 7, 6] : List Nat).length % 4 = 0 ∧
      ([35, 35, 35, 35, 35] : List Nat).length % 5 = 0 ∧
      (∀ c ∈ [35, 35, 35, 35, 35], c ∈ gsIntToChar) ∧
      (∀ v ∈ groupValues5 [35, 35, 35, 35, 35], v < 4294967296) ∧
      b85_encode [9, 8, 7, 6] = b85_encode2 [9, 8, 7, 6] ∧
      b85_decode [35, 35, 35, 35, 35] = b85_decode2 [35, 35, 35, 35, 35] :=
  ⟨by decide, by decide, by decide, by decide,
    (C9_variants_agree [9, 8, 7, 6] [35, 35, 35, 35, 35]).1 (by decide),
    (C9_variants_agree [9, 8, 7, 6] [35, 35, 35, 35, 35]).2 (by decide) (by decide) (by decide)⟩

/-- C10: the known vectors hold: decoding bang bang bang bang hash
yields the buffer 0 0 0 1, encoding 0 0 0 1 yields bang bang bang bang
hash, and encoding 0 0 0 0 yields five bangs. -/
theorem C10_known_vectors :
    b85_decode [33, 33, 33, 33, 35] = Except.ok [0, 0, 0, 1] ∧
      b85_encode [0, 0, 0, 1] = Except.ok [33, 33, 33, 33, 35] ∧
      b85_encode [0, 0, 0, 0] = Except.ok [33, 33, 33, 33, 33] :=
  ⟨by decide, by decide, by decide⟩
